import Mathlib

/-!
Shallow embedding of the mtuci-queue-bot queue manager (src/database.py,
src/models.py, src/main.py) and proofs about it.

The SQLite tables are modelled as lists of row structures; `datetime('now')`
becomes an explicit `now : Nat` argument threaded to every operation whose SQL
or Python mentions the current time.  Python exceptions raised by the embedded
code (sqlite IntegrityError, TypeError from a bad dataclass constructor call,
AttributeError from a missing method) are modelled with `Except PyError`.
-/

namespace QueueBot

/-- Errors the embedded Python code can raise. -/
inductive PyError where
  | integrityError
  | typeError
  | attributeError
deriving DecidableEq

/-- Row of the `users` table (src/database.py init_db). -/
structure UsersRow where
  id : Int
  username : String
  created_at : Nat
deriving DecidableEq

/-- Row of the `queues` table (src/database.py init_db); note the table has an
`expires_at` column, defaulting to `datetime('now', '+1 day')`. -/
structure QueuesRow where
  id : Nat
  name : String
  creator_id : Int
  created_at : Nat
  expires_at : Nat
deriving DecidableEq

/-- Row of the `queue_members` table (src/database.py init_db). -/
structure QueueMembersRow where
  queue_id : Nat
  user_id : Int
  position : Nat
  joined_at : Nat
deriving DecidableEq

/-- The `User` dataclass of src/models.py. -/
structure User where
  id : Int
  username : String
  created_at : Nat
deriving DecidableEq

/-- The `Queue` dataclass of src/models.py.  Its declared fields are exactly
`id`, `name`, `creator_id`, `created_at`: unlike the `queues` table it has NO
`expires_at` field. -/
structure Queue where
  id : Nat
  name : String
  creator_id : Int
  created_at : Nat
deriving DecidableEq

/-- The `QueueMember` dataclass of src/models.py. -/
structure QueueMember where
  queue_id : Nat
  user_id : Int
  position : Nat
  joined_at : Nat
  user : Option User := none
deriving DecidableEq

/-- The whole SQLite database.  `next_queue_id` models the AUTOINCREMENT
counter of the `queues` table. -/
structure DBState where
  users : List UsersRow
  queues : List QueuesRow
  queue_members : List QueueMembersRow
  next_queue_id : Nat
deriving DecidableEq

/-- Embeds `Database.get_user`: SELECT by primary key from `users`. -/
def get_user (s : DBState) (user_id : Int) : Option UsersRow :=
  s.users.find? (fun u => u.id == user_id)

/-- Embeds `Database.create_queue`: INSERT INTO queues; `expires_at` takes the
schema default `datetime('now', '+1 day')`, i.e. now + 86400 seconds; returns
`cursor.lastrowid`.  No validation of the name is performed here. -/
def create_queue (s : DBState) (name : String) (creator_id : Int) (now : Nat) :
    DBState × Nat :=
  let qid := s.next_queue_id
  ({ s with
      queues := s.queues ++ [⟨qid, name, creator_id, now, now + 86400⟩],
      next_queue_id := qid + 1 }, qid)

/-- Embeds the Python call `Queue(id=…, name=…, creator_id=…, created_at=…,
expires_at=…)` performed by `Database.get_queue` (src/database.py lines
92-98).  The `Queue` dataclass of src/models.py declares no `expires_at`
field, so this constructor call raises
`TypeError: unexpected keyword argument` in Python; the embedding therefore
returns that error for every input. -/
def Queue.construct_with_expires_at (_id : Nat) (_name : String)
    (_creator_id : Int) (_created_at : Nat) (_expires_at : Nat) :
    Except PyError Queue :=
  .error .typeError

/-- Embeds `Database.get_queue`: SELECT ... FROM queues WHERE id = ? AND
expires_at > datetime('now'); if a row matches, the source constructs a
`models.Queue` passing `expires_at`, which raises TypeError (see
`Queue.construct_with_expires_at`); if no row matches it returns None. -/
def get_queue (s : DBState) (queue_id : Nat) (now : Nat) :
    Except PyError (Option Queue) :=
  match s.queues.find? (fun q => q.id == queue_id && now < q.expires_at) with
  | some row =>
      (Queue.construct_with_expires_at row.id row.name row.creator_id
        row.created_at row.expires_at).map some
  | none => .ok none

/-- The rows of `queue_members` belonging to one queue
(SQL `WHERE queue_id = ?`). -/
def membersOf (s : DBState) (q : Nat) : List QueueMembersRow :=
  s.queue_members.filter (fun m => m.queue_id == q)

/-- The position column of one queue's members. -/
def positionsOf (s : DBState) (q : Nat) : List Nat :=
  (membersOf s q).map (·.position)

/-- Embeds `SELECT COALESCE(MAX(position), 0) FROM queue_members WHERE
queue_id = ?` (the subquery of `Database.add_to_queue`). -/
def maxPosition (s : DBState) (q : Nat) : Nat :=
  (positionsOf s q).foldr max 0

/-- Embeds `Database.add_to_queue`: computes COALESCE(MAX(position),0)+1 for
the queue, then INSERTs the membership row.  The PRIMARY KEY (queue_id,
user_id) makes the INSERT raise IntegrityError when the membership already
exists (nothing is committed then); there is no check whatsoever against the
`queues` table.  Returns the new position. -/
def add_to_queue (s : DBState) (queue_id : Nat) (user_id : Int) (now : Nat) :
    Except PyError (DBState × Nat) :=
  let position := maxPosition s queue_id + 1
  if s.queue_members.any (fun m => m.queue_id == queue_id && m.user_id == user_id) then
    .error .integrityError
  else
    .ok ({ s with queue_members :=
            s.queue_members ++ [⟨queue_id, user_id, position, now⟩] }, position)

/-- The DELETE-then-UPDATE pair shared (by textual duplication in the source)
between `Database.remove_from_queue` and `Database.remove_user_from_queue`:
`DELETE FROM queue_members WHERE queue_id = ? AND user_id = ?` followed by
`UPDATE queue_members SET position = position - 1 WHERE queue_id = ? AND
position > ?`. -/
def renumberAfterRemoval (l : List QueueMembersRow) (queue_id : Nat)
    (user_id : Int) (removed_position : Nat) : List QueueMembersRow :=
  (l.filter (fun m => !(m.queue_id == queue_id && m.user_id == user_id))).map
    (fun m =>
      if m.queue_id == queue_id && removed_position < m.position then
        { m with position := m.position - 1 }
      else m)

/-- Embeds `Database.remove_from_queue`: SELECT the member's position; if
absent, return with no change; otherwise DELETE the row and UPDATE
`position = position - 1` for every member of the same queue with a larger
position, in one transaction. -/
def remove_from_queue (s : DBState) (queue_id : Nat) (user_id : Int) : DBState :=
  match s.queue_members.find? (fun m => m.queue_id == queue_id && m.user_id == user_id) with
  | none => s
  | some row =>
      { s with queue_members :=
          renumberAfterRemoval s.queue_members queue_id user_id row.position }

/-- Embeds `Database.get_queue_member`: SELECT from queue_members JOIN users;
the row is returned only when both the membership and the user row exist.  No
expiry check of any kind is made.  The joined `User` is built with
`created_at=datetime.now()` in the source, hence the `now` argument. -/
def get_queue_member (s : DBState) (queue_id : Nat) (user_id : Int) (now : Nat) :
    Option QueueMember :=
  match s.queue_members.find? (fun m => m.queue_id == queue_id && m.user_id == user_id) with
  | none => none
  | some m =>
      match s.users.find? (fun u => u.id == m.user_id) with
      | none => none
      | some u =>
          some ⟨m.queue_id, m.user_id, m.position, m.joined_at,
            some ⟨m.user_id, u.username, now⟩⟩

/-- Embeds `Database.get_next_in_queue`: queue_members JOIN users for the
queue, ORDER BY position ASC LIMIT 1. -/
def get_next_in_queue (s : DBState) (queue_id : Nat) (now : Nat) :
    Option QueueMember :=
  let rows := (membersOf s queue_id).filterMap
    (fun m => (s.users.find? (fun u => u.id == m.user_id)).map (fun u => (m, u.username)))
  match rows.foldl
      (fun acc mu =>
        match acc with
        | none => some mu
        | some best => if mu.1.position < best.1.position then some mu else some best)
      none with
  | none => none
  | some mu =>
      some ⟨mu.1.queue_id, mu.1.user_id, mu.1.position, mu.1.joined_at,
        some ⟨mu.1.user_id, mu.2, now⟩⟩

/-- Embeds `Database.get_queue_member_count`: SELECT COUNT( * ) FROM
queue_members WHERE queue_id = ?.  The `queues` table (and in particular
`expires_at`) is never consulted. -/
def get_queue_member_count (s : DBState) (queue_id : Nat) : Nat :=
  (membersOf s queue_id).length

/-- Embeds `Database.delete_queue`: returns False with no change unless a
queues row matches both id and creator_id; otherwise deletes that queues row
and returns True.  src/database.py `init_db` never executes
`PRAGMA foreign_keys=ON` and sqlite leaves foreign-key enforcement OFF by
default, so the `ON DELETE CASCADE` declared on queue_members does not fire:
the membership rows survive the deletion, exactly as modelled here. -/
def delete_queue (s : DBState) (queue_id : Nat) (creator_id : Int) :
    DBState × Bool :=
  if s.queues.any (fun q => q.id == queue_id && q.creator_id == creator_id) then
    ({ s with queues :=
        s.queues.filter (fun q => !(q.id == queue_id && q.creator_id == creator_id)) },
      true)
  else (s, false)

/-- Embeds `Database.remove_user_from_queue`: authorization check against the
queues row (id and creator_id), then the same delete-and-renumber steps as
`remove_from_queue`, duplicated in the source. -/
def remove_user_from_queue (s : DBState) (queue_id : Nat) (user_id : Int)
    (creator_id : Int) : DBState × Bool :=
  if s.queues.any (fun q => q.id == queue_id && q.creator_id == creator_id) then
    match s.queue_members.find? (fun m => m.queue_id == queue_id && m.user_id == user_id) with
    | none => (s, false)
    | some row =>
        ({ s with queue_members :=
            renumberAfterRemoval s.queue_members queue_id user_id row.position },
          true)
  else (s, false)

/-- Embeds the call `db.get_user_by_username(target_username)` made by
src/main.py `cmd_remove_user` (line 424).  The `Database` class of
src/database.py defines no method of that name (nor does any other file of
the repository), so the attribute access raises AttributeError. -/
def get_user_by_username (_s : DBState) (_username : String) :
    Except PyError (Option UsersRow) :=
  .error .attributeError

/-- Bool membership test: does (queue_id, user_id) hold a membership row. -/
def isMember (s : DBState) (q : Nat) (u : Int) : Bool :=
  s.queue_members.any (fun m => m.queue_id == q && m.user_id == u)

/-- The position stored for one (queue, user) membership, if any. -/
def positionIn (s : DBState) (q : Nat) (u : Int) : Option Nat :=
  (s.queue_members.find? (fun m => m.queue_id == q && m.user_id == u)).map (·.position)

/-- Outcome reported by the join handler of src/main.py. -/
inductive JoinOutcome where
  | notRegistered
  | queueNotFound
  | alreadyMember
  | joined (position : Nat) (total : Nat)
  | internalError
deriving DecidableEq

/-- Embeds src/main.py `cmd_join_queue` (same body as `callback_join_queue`):
user registration check, then the section under the per-queue asyncio lock:
`db.get_queue`, `db.get_queue_member`, `db.add_to_queue`,
`db.get_queue_member_count`.  Any exception escaping a db call is caught by
the handler's try/except, which reports a generic error and leaves the
database unchanged. -/
def cmd_join_queue (s : DBState) (queue_id : Nat) (user_id : Int) (now : Nat) :
    DBState × JoinOutcome :=
  match get_user s user_id with
  | none => (s, .notRegistered)
  | some _ =>
      match get_queue s queue_id now with
      | .error _ => (s, .internalError)
      | .ok none => (s, .queueNotFound)
      | .ok (some _) =>
          match get_queue_member s queue_id user_id now with
          | some _ => (s, .alreadyMember)
          | none =>
              match add_to_queue s queue_id user_id now with
              | .error _ => (s, .internalError)
              | .ok (s', position) =>
                  (s', .joined position (get_queue_member_count s' queue_id))

/-- Outcome reported by the remove-member handler of src/main.py. -/
inductive RemoveUserOutcome where
  | queueNotFound
  | notAuthorized
  | userNotFound
  | removed
  | notInQueue
  | internalError
deriving DecidableEq

/-- Embeds src/main.py `cmd_remove_user` (body under the per-queue lock):
`db.get_queue`, creator check, `db.get_user_by_username`,
`db.remove_user_from_queue`; exceptions are caught by the handler's
try/except, reporting a generic error with the database unchanged. -/
def cmd_remove_user (s : DBState) (queue_id : Nat) (target_username : String)
    (user_id : Int) (now : Nat) : DBState × RemoveUserOutcome :=
  match get_queue s queue_id now with
  | .error _ => (s, .internalError)
  | .ok none => (s, .queueNotFound)
  | .ok (some queue) =>
      if queue.creator_id ≠ user_id then (s, .notAuthorized)
      else
        match get_user_by_username s target_username with
        | .error _ => (s, .internalError)
        | .ok none => (s, .userNotFound)
        | .ok (some target_user) =>
            match remove_user_from_queue s queue_id target_user.id user_id with
            | (s', true) => (s', .removed)
            | (_, false) => (s, .notInQueue)

/-- Outcome of the interactive queue-creation flow of src/main.py. -/
inductive CreateOutcome where
  | emptyName
  | nameTooLong
  | created (queue_id : Nat)
deriving DecidableEq

/-- Python `str.strip()`: removes leading and trailing whitespace, embedded
on the character list of the string. -/
def pyStrip (s : String) : String :=
  String.mk
    ((s.data.dropWhile Char.isWhitespace).reverse.dropWhile Char.isWhitespace).reverse

/-- Embeds the `waiting_queue_name` branch of src/main.py
`handle_unknown_message` (lines 792-830): strips the message text, rejects an
empty name, rejects a name longer than 100 characters, otherwise calls
`db.create_queue`.  Python `len` on a str counts characters, as
`String.length` does. -/
def create_queue_flow (s : DBState) (text : String) (user_id : Int) (now : Nat) :
    DBState × CreateOutcome :=
  let queue_name := pyStrip text
  if queue_name = "" then (s, .emptyName)
  else if 100 < queue_name.length then (s, .nameTooLong)
  else
    let r := create_queue s queue_name user_id now
    (r.1, .created r.2)

/-- The store-level mutating operations a queue's membership can undergo,
as issued by the handlers of src/main.py: join (`db.add_to_queue`), leave
(`db.remove_from_queue`), advance (`db.get_next_in_queue` then
`db.remove_from_queue`, as in `cmd_next`), and remove-member
(`db.remove_user_from_queue`). -/
inductive Op where
  | join (queue_id : Nat) (user_id : Int) (now : Nat)
  | leave (queue_id : Nat) (user_id : Int)
  | advance (queue_id : Nat) (now : Nat)
  | removeMember (queue_id : Nat) (user_id : Int) (requester : Int)
deriving DecidableEq

/-- Effect of one operation on the database.  A failed `add_to_queue`
(IntegrityError before commit) leaves the state unchanged; an `advance` on a
queue whose front is empty does nothing. -/
def applyOp (s : DBState) : Op → DBState
  | .join q u now =>
      match add_to_queue s q u now with
      | .error _ => s
      | .ok r => r.1
  | .leave q u => remove_from_queue s q u
  | .advance q now =>
      match get_next_in_queue s q now with
      | none => s
      | some m => remove_from_queue s q m.user_id
  | .removeMember q u r => (remove_user_from_queue s q u r).1

/-- Folds a whole sequence of operations over the database. -/
def applyOps (s : DBState) (ops : List Op) : DBState :=
  ops.foldl applyOp s

/-- The user is a member of queue q after every single operation of the
trace: the formal rendering of "the user neither leaves nor is removed
during the trace". -/
def memberThrough (s : DBState) (ops : List Op) (q : Nat) (u : Int) : Bool :=
  match ops with
  | [] => true
  | o :: rest => isMember (applyOp s o) q u && memberThrough (applyOp s o) rest q u

/-- PRIMARY KEY (queue_id, user_id) of the queue_members table: no two rows
share both keys. -/
def pkUnique (l : List QueueMembersRow) : Prop :=
  l.Pairwise (fun a b => ¬(a.queue_id = b.queue_id ∧ a.user_id = b.user_id))

/-- Contiguity of one queue's positions: the multiset of position values is
exactly 1..N where N is the queue's member count. -/
def contiguous (s : DBState) (q : Nat) : Prop :=
  (positionsOf s q).Perm (List.range' 1 (get_queue_member_count s q))

/-- The state invariant: primary-key uniqueness plus contiguity of every
queue's positions. -/
def Inv (s : DBState) : Prop :=
  pkUnique s.queue_members ∧ ∀ q, contiguous s q

/-- A small concrete database used to evaluate the claims on explicit
inputs: creator 10 owns queue 1 (created at 0, expiring at 86400) whose
members are users 20 and 30 at positions 1 and 2, and the empty queue 2
(same creator and lifetime). -/
def sampleState : DBState :=
  ⟨[⟨10, "creator", 0⟩, ⟨20, "user20", 0⟩, ⟨30, "user30", 0⟩],
   [⟨1, "Lab1", 10, 0, 86400⟩, ⟨2, "Lab2", 10, 0, 86400⟩],
   [⟨1, 20, 1, 1⟩, ⟨1, 30, 2, 2⟩], 3⟩

/-- A state whose queue_members table references queue 5 although no queues
row with id 5 exists at all. -/
def orphanState : DBState :=
  ⟨[], [], [⟨5, 20, 1, 0⟩], 1⟩

/-- A 101-character queue name, one character above the advertised limit. -/
def longName : String :=
  String.mk (List.replicate 101 'a')

/-! ### Generic list lemmas used by the invariant proofs -/

lemma le_foldr_max {L : List Nat} {x : Nat} (h : x ∈ L) : x ≤ L.foldr max 0 := by
  induction L with
  | nil => cases h
  | cons a L ih =>
      rcases List.mem_cons.mp h with rfl | h'
      · exact le_max_left _ _
      · exact le_trans (ih h') (le_max_right _ _)

lemma foldr_max_le {L : List Nat} {n : Nat} (h : ∀ x ∈ L, x ≤ n) :
    L.foldr max 0 ≤ n := by
  induction L with
  | nil => exact Nat.zero_le n
  | cons a L ih =>
      exact max_le (h a (List.mem_cons_self a L))
        (ih fun x hx => h x (List.mem_cons_of_mem a hx))

lemma foldr_max_mem {L : List Nat} (h : L ≠ []) : L.foldr max 0 ∈ L := by
  induction L with
  | nil => cases h rfl
  | cons a L ih =>
      cases L with
      | nil => simp
      | cons b M =>
          show max a ((b :: M).foldr max 0) ∈ _
          rcases max_choice a ((b :: M).foldr max 0) with hm | hm
          · rw [hm]
            exact List.mem_cons_self _ _
          · rw [hm]
            exact List.mem_cons_of_mem _ (ih (by simp))

lemma foldr_max_of_perm_range' {L : List Nat} {n : Nat}
    (h : L.Perm (List.range' 1 n)) : L.foldr max 0 = n := by
  cases n with
  | zero =>
      have : L = [] := List.Perm.eq_nil h
      simp [this]
  | succ n =>
      have hmem : n + 1 ∈ L := by
        refine h.mem_iff.mpr ?_
        rw [List.mem_range'_1]
        omega
      have hub : ∀ x ∈ L, x ≤ n + 1 := by
        intro x hx
        have := List.mem_range'_1.mp (h.subset hx)
        omega
      exact le_antisymm (foldr_max_le hub) (le_foldr_max hmem)

lemma map_sub_one_range' : ∀ (k s : Nat),
    (List.range' (s + 1) k).map (fun x => x - 1) = List.range' s k := by
  intro k
  induction k with
  | zero => intro s; rfl
  | succ k ih =>
      intro s
      rw [List.range'_succ, List.range'_succ, List.map_cons, ih (s + 1)]
      simp

/-- Removing the value p from a 1..n block of positions and decrementing every
larger value yields the 1..(n-1) block: the pure content of the renumbering
step of `remove_from_queue`. -/
lemma perm_range'_remove {A B : List Nat} {p n : Nat}
    (h : (A ++ p :: B).Perm (List.range' 1 n)) :
    ((A ++ B).map (fun x => if p < x then x - 1 else x)).Perm
      (List.range' 1 (n - 1)) := by
  have hp : p ∈ List.range' 1 n := h.subset (by simp)
  have hp' := List.mem_range'_1.mp hp
  have h2 : (p :: (A ++ B)).Perm (List.range' 1 n) :=
    (List.perm_middle.symm).trans h
  have e0 : 1 + 1 * (p - 1) = p := by omega
  have e2 : n - (p - 1) + (p - 1) = n := by omega
  have e1 : n - (p - 1) = (n - p) + 1 := by omega
  have hsplit : List.range' 1 (p - 1) ++ p :: List.range' (p + 1) (n - p) =
      List.range' 1 n := by
    have hap := List.range'_append 1 (p - 1) (n - (p - 1)) 1
    rw [e0, e2, e1, List.range'_succ] at hap
    exact hap
  have h3 : (A ++ B).Perm
      (List.range' 1 (p - 1) ++ List.range' (p + 1) (n - p)) := by
    refine List.Perm.cons_inv (a := p) ?_
    refine h2.trans ?_
    rw [← hsplit]
    exact List.perm_middle
  have h4 := h3.map (fun x => if p < x then x - 1 else x)
  rw [List.map_append, List.map_append] at h4
  have hlow : (List.range' 1 (p - 1)).map (fun x => if p < x then x - 1 else x) =
      List.range' 1 (p - 1) := by
    have : ∀ x ∈ List.range' 1 (p - 1),
        (if p < x then x - 1 else x) = x := by
      intro x hx
      have := List.mem_range'_1.mp hx
      have : ¬ p < x := by omega
      simp [this]
    rw [List.map_congr_left this, List.map_id']
  have hhigh : (List.range' (p + 1) (n - p)).map (fun x => if p < x then x - 1 else x) =
      List.range' p (n - p) := by
    have hc : ∀ x ∈ List.range' (p + 1) (n - p),
        (if p < x then x - 1 else x) = x - 1 := by
      intro x hx
      have := List.mem_range'_1.mp hx
      have : p < x := by omega
      simp [this]
    rw [List.map_congr_left hc, map_sub_one_range']
  rw [hlow, hhigh, ← List.map_append] at h4
  have hjoin : List.range' 1 (p - 1) ++ List.range' p (n - p) =
      List.range' 1 (n - 1) := by
    have hap := List.range'_append 1 (p - 1) (n - p) 1
    rw [e0] at hap
    have e3 : n - p + (p - 1) = n - 1 := by omega
    rw [e3] at hap
    exact hap
  rw [hjoin] at h4
  exact h4

/-- find? over a kept-and-mapped list, when the predicate survives the map and
forces keeping: the generic shape of membership lookups across the
delete-and-renumber step. -/
lemma find?_filter_map {α : Type _} (l : List α) (keep : α → Bool) (f : α → α)
    (p : α → Bool) (hkeep : ∀ m, p m = true → keep m = true)
    (hf : ∀ m, p (f m) = p m) :
    ((l.filter keep).map f).find? p = (l.find? p).map f := by
  induction l with
  | nil => rfl
  | cons a l ih =>
      cases hpa : p a with
      | true =>
          rw [List.filter_cons_of_pos (hkeep a hpa), List.map_cons,
            List.find?_cons_of_pos _ (by rw [hf]; exact hpa),
            List.find?_cons_of_pos _ hpa, Option.map_some']
      | false =>
          rw [List.find?_cons_of_neg _ (by simp [hpa])]
          cases hk : keep a with
          | true =>
              rw [List.filter_cons_of_pos hk, List.map_cons,
                List.find?_cons_of_neg _ (by rw [hf]; simp [hpa])]
              exact ih
          | false =>
              rw [List.filter_cons_of_neg (by simp [hk])]
              exact ih

/-! ### Facts about the delete-and-renumber step -/

lemma upd_queue_id (q p : Nat) (m : QueueMembersRow) :
    (if m.queue_id == q && p < m.position then
        { m with position := m.position - 1 } else m).queue_id = m.queue_id := by
  split <;> rfl

lemma upd_user_id (q p : Nat) (m : QueueMembersRow) :
    (if m.queue_id == q && p < m.position then
        { m with position := m.position - 1 } else m).user_id = m.user_id := by
  split <;> rfl

lemma remove_from_queue_of_none {s : DBState} {q : Nat} {u : Int}
    (hfind : s.queue_members.find? (fun m => m.queue_id == q && m.user_id == u) = none) :
    remove_from_queue s q u = s := by
  unfold remove_from_queue
  rw [hfind]

lemma remove_from_queue_of_some {s : DBState} {q : Nat} {u : Int}
    {row : QueueMembersRow}
    (hfind : s.queue_members.find? (fun m => m.queue_id == q && m.user_id == u) = some row) :
    remove_from_queue s q u =
      { s with queue_members := renumberAfterRemoval s.queue_members q u row.position } := by
  unfold remove_from_queue
  rw [hfind]

/-- The mutated state of `remove_user_from_queue` coincides with
`remove_from_queue` when the creator check passes, and with the unchanged
state otherwise (the source duplicates the SQL of `remove_from_queue`). -/
lemma remove_user_from_queue_fst (s : DBState) (q : Nat) (u : Int) (r : Int) :
    (remove_user_from_queue s q u r).1 =
      if s.queues.any (fun qq => qq.id == q && qq.creator_id == r) then
        remove_from_queue s q u
      else s := by
  unfold remove_user_from_queue
  split
  · cases hfind : s.queue_members.find? (fun m => m.queue_id == q && m.user_id == u) with
    | none => rw [remove_from_queue_of_none hfind]
    | some row => rw [remove_from_queue_of_some hfind]
  · rfl

lemma renumber_filter_of_ne {l : List QueueMembersRow} {q q' : Nat} {u : Int}
    {p : Nat} (hne : q' ≠ q) :
    (renumberAfterRemoval l q u p).filter (fun m => m.queue_id == q') =
      l.filter (fun m => m.queue_id == q') := by
  unfold renumberAfterRemoval
  rw [List.filter_map]
  have hpf : ((fun m : QueueMembersRow => m.queue_id == q') ∘
      (fun m => if m.queue_id == q && p < m.position then
          { m with position := m.position - 1 } else m)) =
      fun m : QueueMembersRow => m.queue_id == q' := by
    funext m
    simp only [Function.comp]
    rw [upd_queue_id]
  rw [hpf, List.filter_filter]
  have hfc : ∀ m ∈ l,
      ((m.queue_id == q') && !(m.queue_id == q && m.user_id == u)) =
        (m.queue_id == q') := by
    intro m _
    cases hq : (m.queue_id == q') with
    | false => rfl
    | true =>
        have h1 : m.queue_id = q' := by simpa using hq
        have h2 : (m.queue_id == q) = false := by
          simp [h1]
          exact hne
        simp [h2]
  rw [List.filter_congr hfc]
  have hid : ∀ m ∈ l.filter (fun m => m.queue_id == q'),
      (if m.queue_id == q && p < m.position then
          { m with position := m.position - 1 } else m) = m := by
    intro m hm
    have h1 : m.queue_id = q' := by simpa using (List.mem_filter.mp hm).2
    have h2 : (m.queue_id == q) = false := by
      simp [h1]
      exact hne
    simp [h2]
  rw [List.map_congr_left hid, List.map_id']

lemma renumber_filter_self {l : List QueueMembersRow} {q : Nat} {u : Int}
    {p : Nat} :
    (renumberAfterRemoval l q u p).filter (fun m => m.queue_id == q) =
      ((l.filter (fun m => m.queue_id == q)).filter (fun m => !(m.user_id == u))).map
        (fun m => if p < m.position then { m with position := m.position - 1 } else m) := by
  unfold renumberAfterRemoval
  rw [List.filter_map]
  have hpf : ((fun m : QueueMembersRow => m.queue_id == q) ∘
      (fun m => if m.queue_id == q && p < m.position then
          { m with position := m.position - 1 } else m)) =
      fun m : QueueMembersRow => m.queue_id == q := by
    funext m
    simp only [Function.comp]
    rw [upd_queue_id]
  rw [hpf, List.filter_filter, List.filter_filter]
  have hfc : ∀ m ∈ l,
      ((m.queue_id == q) && !(m.queue_id == q && m.user_id == u)) =
        (!(m.user_id == u) && (m.queue_id == q)) := by
    intro m _
    cases hq : (m.queue_id == q) <;> cases hu : (m.user_id == u) <;> rfl
  rw [List.filter_congr hfc]
  apply List.map_congr_left
  intro m hm
  have h1 : (m.queue_id == q) = true := by
    have := (List.mem_filter.mp hm).2
    exact (Bool.and_elim_right this)
  rw [h1]
  simp

lemma pkUnique_renumber {l : List QueueMembersRow} {q : Nat} {u : Int} {p : Nat}
    (h : pkUnique l) : pkUnique (renumberAfterRemoval l q u p) := by
  unfold renumberAfterRemoval pkUnique
  rw [List.pairwise_map]
  refine (h.filter _).imp ?_
  intro a b hab
  rw [upd_queue_id, upd_queue_id, upd_user_id, upd_user_id]
  exact hab

/-- With a unique primary key, removing the found row splits the queue's
member list around that row and maps the decrement over the remainder. -/
lemma membersOf_remove_decomp {s : DBState} {q : Nat} {u : Int}
    {row : QueueMembersRow} (hpk : pkUnique s.queue_members)
    (hfind : s.queue_members.find? (fun m => m.queue_id == q && m.user_id == u) = some row) :
    ∃ A B, membersOf s q = A ++ row :: B ∧
      membersOf (remove_from_queue s q u) q = (A ++ B).map
        (fun m => if row.position < m.position then
            { m with position := m.position - 1 } else m) := by
  have hrow := List.find?_some hfind
  rw [Bool.and_eq_true, beq_iff_eq, beq_iff_eq] at hrow
  obtain ⟨hrowq, hrowu⟩ := hrow
  have hrowmem : row ∈ s.queue_members := List.mem_of_find?_eq_some hfind
  have hmem2 : row ∈ membersOf s q :=
    List.mem_filter.mpr ⟨hrowmem, by simp [hrowq]⟩
  obtain ⟨A, B, hAB⟩ := List.append_of_mem hmem2
  have hq_all : ∀ m ∈ membersOf s q, m.queue_id = q := by
    intro m hm
    simpa using (List.mem_filter.mp hm).2
  have hPW : (membersOf s q).Pairwise
      (fun a b => ¬(a.queue_id = b.queue_id ∧ a.user_id = b.user_id)) :=
    hpk.filter _
  rw [hAB] at hPW
  obtain ⟨-, hPW2, hcross⟩ := List.pairwise_append.mp hPW
  have hA_ne : ∀ a ∈ A, a.user_id ≠ u := by
    intro a ha
    have h1 := hcross a ha row (List.mem_cons_self row B)
    have h2 : a.queue_id = q := hq_all a (by rw [hAB]; exact List.mem_append_left _ ha)
    intro hu
    exact h1 ⟨by rw [h2, hrowq], by rw [hu, hrowu]⟩
  have hB_ne : ∀ b ∈ B, b.user_id ≠ u := by
    intro b hb
    have h1 := (List.pairwise_cons.mp hPW2).1 b hb
    have h2 : b.queue_id = q := hq_all b
      (by rw [hAB]; exact List.mem_append_right _ (List.mem_cons_of_mem row hb))
    intro hu
    exact h1 ⟨by rw [h2, hrowq], by rw [hu, hrowu]⟩
  have hfilter : (membersOf s q).filter (fun m => !(m.user_id == u)) = A ++ B := by
    rw [hAB, List.filter_append, List.filter_cons_of_neg (by simp [hrowu]),
      List.filter_eq_self.mpr (by intro a ha; simp [hA_ne a ha]),
      List.filter_eq_self.mpr (by intro b hb; simp [hB_ne b hb])]
  refine ⟨A, B, hAB, ?_⟩
  rw [remove_from_queue_of_some hfind]
  show (renumberAfterRemoval s.queue_members q u row.position).filter
      (fun m => m.queue_id == q) = _
  rw [renumber_filter_self]
  show ((membersOf s q).filter (fun m => !(m.user_id == u))).map _ = _
  rw [hfilter]

/-- The member count of the affected queue drops by exactly one. -/
lemma count_after_remove {s : DBState} {q : Nat} {u : Int}
    {row : QueueMembersRow} (hpk : pkUnique s.queue_members)
    (hfind : s.queue_members.find? (fun m => m.queue_id == q && m.user_id == u) = some row) :
    get_queue_member_count (remove_from_queue s q u) q =
      get_queue_member_count s q - 1 := by
  obtain ⟨A, B, hAB, hAB'⟩ := membersOf_remove_decomp hpk hfind
  unfold get_queue_member_count
  rw [hAB, hAB']
  simp only [List.length_map, List.length_append, List.length_cons]
  omega

/-! ### Preservation of the invariant by every store mutation -/

lemma inv_remove {s : DBState} (hInv : Inv s) (q : Nat) (u : Int) :
    Inv (remove_from_queue s q u) := by
  cases hfind : s.queue_members.find? (fun m => m.queue_id == q && m.user_id == u) with
  | none =>
      rw [remove_from_queue_of_none hfind]
      exact hInv
  | some row =>
      rw [remove_from_queue_of_some hfind]
      have hrow := List.find?_some hfind
      rw [Bool.and_eq_true, beq_iff_eq, beq_iff_eq] at hrow
      obtain ⟨hrowq, hrowu⟩ := hrow
      have hrowmem : row ∈ s.queue_members := List.mem_of_find?_eq_some hfind
      refine ⟨pkUnique_renumber hInv.1, ?_⟩
      intro q''
      by_cases hqq : q'' = q
      · subst hqq
        have hmem2 : row ∈ membersOf s q'' :=
          List.mem_filter.mpr ⟨hrowmem, by simp [hrowq]⟩
        obtain ⟨A, B, hAB⟩ := List.append_of_mem hmem2
        have hq_all : ∀ m ∈ membersOf s q'', m.queue_id = q'' := by
          intro m hm
          simpa using (List.mem_filter.mp hm).2
        have hPW : (membersOf s q'').Pairwise
            (fun a b => ¬(a.queue_id = b.queue_id ∧ a.user_id = b.user_id)) :=
          hInv.1.filter _
        rw [hAB] at hPW
        obtain ⟨-, hPW2, hcross⟩ := List.pairwise_append.mp hPW
        have hA_ne : ∀ a ∈ A, a.user_id ≠ u := by
          intro a ha
          have h1 := hcross a ha row (List.mem_cons_self row B)
          have h2 : a.queue_id = q'' := hq_all a (by rw [hAB]; exact List.mem_append_left _ ha)
          intro hu
          exact h1 ⟨by rw [h2, hrowq], by rw [hu, hrowu]⟩
        have hB_ne : ∀ b ∈ B, b.user_id ≠ u := by
          intro b hb
          have h1 := (List.pairwise_cons.mp hPW2).1 b hb
          have h2 : b.queue_id = q'' := hq_all b
            (by rw [hAB]; exact List.mem_append_right _ (List.mem_cons_of_mem row hb))
          intro hu
          exact h1 ⟨by rw [h2, hrowq], by rw [hu, hrowu]⟩
        have hfilter : (membersOf s q'').filter (fun m => !(m.user_id == u)) = A ++ B := by
          rw [hAB, List.filter_append, List.filter_cons_of_neg (by simp [hrowu]),
            List.filter_eq_self.mpr (by intro a ha; simp [hA_ne a ha]),
            List.filter_eq_self.mpr (by intro b hb; simp [hB_ne b hb])]
        have hmembers : membersOf (⟨s.users, s.queues,
            renumberAfterRemoval s.queue_members q'' u row.position,
            s.next_queue_id⟩ : DBState) q'' =
            (A ++ B).map (fun m =>
              if row.position < m.position then
                { m with position := m.position - 1 } else m) := by
          show (renumberAfterRemoval s.queue_members q'' u row.position).filter
              (fun m => m.queue_id == q'') = _
          rw [renumber_filter_self]
          show ((membersOf s q'').filter (fun m => !(m.user_id == u))).map _ = _
          rw [hfilter]
        unfold contiguous positionsOf get_queue_member_count
        rw [hmembers]
        have hcomp : ((fun m : QueueMembersRow => m.position) ∘
            (fun m => if row.position < m.position then
                { m with position := m.position - 1 } else m)) =
            ((fun x => if row.position < x then x - 1 else x) ∘
              (fun m : QueueMembersRow => m.position)) := by
          funext m
          simp only [Function.comp]
          split <;> simp_all
        have hposmap : ((A ++ B).map (fun m =>
            if row.position < m.position then
              { m with position := m.position - 1 } else m)).map
              (fun m : QueueMembersRow => m.position) =
            ((A.map (fun m : QueueMembersRow => m.position) ++
              B.map (fun m : QueueMembersRow => m.position)).map
              (fun x => if row.position < x then x - 1 else x)) := by
          rw [List.map_map, hcomp, ← List.map_map, List.map_append]
        rw [List.length_map, List.length_append, hposmap]
        have hperm := hInv.2 q''
        unfold contiguous positionsOf get_queue_member_count at hperm
        rw [hAB] at hperm
        simp only [List.map_append, List.map_cons, List.length_append,
          List.length_map, List.length_cons] at hperm
        have hres := perm_range'_remove hperm
        have hlen : A.length + (B.length + 1) - 1 = A.length + B.length := by omega
        rw [hlen] at hres
        exact hres
      · have hne : contiguous s q'' := hInv.2 q''
        unfold contiguous positionsOf get_queue_member_count at hne ⊢
        have hmem : membersOf (⟨s.users, s.queues,
            renumberAfterRemoval s.queue_members q u row.position,
            s.next_queue_id⟩ : DBState) q'' = membersOf s q'' := by
          show (renumberAfterRemoval s.queue_members q u row.position).filter
              (fun m => m.queue_id == q'') = _
          rw [renumber_filter_of_ne hqq]
          rfl
        rw [hmem]
        exact hne

lemma inv_add_to_queue {s : DBState} (hInv : Inv s) {q : Nat} {u : Int}
    {now : Nat} {s' : DBState} {pos : Nat}
    (h : add_to_queue s q u now = .ok (s', pos)) : Inv s' := by
  unfold add_to_queue at h
  by_cases hany : s.queue_members.any (fun m => m.queue_id == q && m.user_id == u) = true
  · rw [if_pos hany] at h
    cases h
  · rw [if_neg hany] at h
    rw [Except.ok.injEq, Prod.mk.injEq] at h
    obtain ⟨hs', -⟩ := h
    have hnomem : ∀ m ∈ s.queue_members, ¬(m.queue_id = q ∧ m.user_id = u) := by
      intro m hm hcontra
      have := List.any_eq_false.mp (Bool.of_not_eq_true hany) m hm
      simp [hcontra.1, hcontra.2] at this
    subst hs'
    constructor
    · unfold pkUnique
      rw [List.pairwise_append]
      refine ⟨hInv.1, List.pairwise_singleton _ _, ?_⟩
      intro a ha b hb
      rw [List.mem_singleton] at hb
      subst hb
      intro hcontra
      exact hnomem a ha ⟨hcontra.1, hcontra.2⟩
    · intro q''
      by_cases hqq : q'' = q
      · subst hqq
        unfold contiguous positionsOf get_queue_member_count
        have hmem : membersOf (⟨s.users, s.queues,
            s.queue_members ++ [⟨q'', u, maxPosition s q'' + 1, now⟩],
            s.next_queue_id⟩ : DBState) q'' =
            membersOf s q'' ++ [⟨q'', u, maxPosition s q'' + 1, now⟩] := by
          show (s.queue_members ++ [_]).filter _ = _
          rw [List.filter_append]
          simp [membersOf]
        rw [hmem]
        simp only [List.map_append, List.map_cons, List.map_nil,
          List.length_append, List.length_cons, List.length_nil, List.length_map]
        have hperm := hInv.2 q''
        unfold contiguous positionsOf get_queue_member_count at hperm
        have hmax : maxPosition s q'' = (membersOf s q'').length :=
          foldr_max_of_perm_range' hperm
        have hconc : List.range' 1 ((membersOf s q'').length + 1) =
            List.range' 1 (membersOf s q'').length ++
              [(membersOf s q'').length + 1] := by
          rw [List.range'_concat]
          simp [Nat.add_comm]
        have he : (membersOf s q'').length + (0 + 1) = (membersOf s q'').length + 1 := by
          omega
        rw [he, hconc]
        refine hperm.append ?_
        rw [hmax]
      · unfold contiguous positionsOf get_queue_member_count
        have hmem : membersOf (⟨s.users, s.queues,
            s.queue_members ++ [⟨q, u, maxPosition s q + 1, now⟩],
            s.next_queue_id⟩ : DBState) q'' = membersOf s q'' := by
          show (s.queue_members ++ [_]).filter _ = _
          rw [List.filter_append]
          have : ([(⟨q, u, maxPosition s q + 1, now⟩ : QueueMembersRow)].filter
              (fun m => m.queue_id == q'')) = [] := by
            simp
            exact fun hc => hqq hc.symm
          rw [this, List.append_nil]
          rfl
        rw [hmem]
        exact hInv.2 q''

lemma inv_applyOp {s : DBState} (hInv : Inv s) (o : Op) : Inv (applyOp s o) := by
  cases o with
  | join q u now =>
      simp only [applyOp]
      cases h : add_to_queue s q u now with
      | error e => exact hInv
      | ok r => exact inv_add_to_queue hInv (by rw [h])
  | leave q u => exact inv_remove hInv q u
  | advance q now =>
      simp only [applyOp]
      cases get_next_in_queue s q now with
      | none => exact hInv
      | some m => exact inv_remove hInv q m.user_id
  | removeMember q u r =>
      simp only [applyOp]
      rw [remove_user_from_queue_fst]
      split
      · exact inv_remove hInv q u
      · exact hInv

lemma inv_applyOps {s : DBState} (hInv : Inv s) (ops : List Op) :
    Inv (applyOps s ops) := by
  induction ops generalizing s with
  | nil => exact hInv
  | cons o rest ih => exact ih (inv_applyOp hInv o)

/-- Any state whose queue_members table is empty satisfies the invariant. -/
lemma inv_of_empty_members (users : List UsersRow) (queues : List QueuesRow)
    (nid : Nat) : Inv ⟨users, queues, [], nid⟩ := by
  constructor
  · exact List.Pairwise.nil
  · intro q
    unfold contiguous positionsOf get_queue_member_count membersOf
    simp

/-! ### Lookup lemmas across single operations, for the FIFO proof -/

lemma isMember_eq_isSome (s : DBState) (q : Nat) (u : Int) :
    isMember s q u =
      (s.queue_members.find? (fun m => m.queue_id == q && m.user_id == u)).isSome := by
  unfold isMember
  cases hf : s.queue_members.find? (fun m => m.queue_id == q && m.user_id == u) with
  | none =>
      have := List.find?_eq_none.mp hf
      simp only [Option.isSome_none]
      rw [← Bool.not_eq_true, List.any_eq_true]
      rintro ⟨x, hx, hpx⟩
      exact this x hx hpx
  | some m =>
      simp only [Option.isSome_some]
      rw [List.any_eq_true]
      refine ⟨m, List.mem_of_find?_eq_some hf, ?_⟩
      have hp := List.find?_some hf
      exact hp

lemma isMember_iff_positionIn {s : DBState} {q : Nat} {u : Int} :
    isMember s q u = true ↔ ∃ p, positionIn s q u = some p := by
  rw [isMember_eq_isSome]
  unfold positionIn
  cases s.queue_members.find? (fun m => m.queue_id == q && m.user_id == u) with
  | none => simp
  | some m => simp

/-- A successful join appends exactly one row with position max+1. -/
lemma applyOp_join_of_not_member {s : DBState} {q : Nat} {u : Int} {now : Nat}
    (h : isMember s q u = false) :
    applyOp s (.join q u now) =
      ⟨s.users, s.queues,
        s.queue_members ++ [⟨q, u, maxPosition s q + 1, now⟩], s.next_queue_id⟩ := by
  simp only [applyOp]
  unfold add_to_queue
  rw [if_neg (by rw [isMember] at h; simp [h])]

lemma positionIn_after_join {s : DBState} {q : Nat} {u : Int} {now : Nat}
    (h : isMember s q u = false) :
    positionIn (applyOp s (.join q u now)) q u = some (maxPosition s q + 1) := by
  rw [applyOp_join_of_not_member h]
  unfold positionIn
  show ((s.queue_members ++ [_]).find? _).map _ = _
  rw [List.find?_append]
  have hnone : s.queue_members.find? (fun m => m.queue_id == q && m.user_id == u) = none := by
    rw [List.find?_eq_none]
    intro x hx hpx
    rw [isMember] at h
    have := List.any_eq_false.mp h x hx
    exact this hpx
  rw [hnone]
  simp

/-- A join (successful or not, on any queue) does not change any existing
membership lookup. -/
lemma positionIn_join_preserves {s : DBState} {qj : Nat} {w : Int} {tj : Nat}
    {q : Nat} {v : Int} {pv : Nat} (hv : positionIn s q v = some pv) :
    positionIn (applyOp s (.join qj w tj)) q v = some pv := by
  by_cases hmem : isMember s qj w = true
  · have hsame : applyOp s (.join qj w tj) = s := by
      simp only [applyOp]
      unfold add_to_queue
      rw [if_pos (by rw [isMember] at hmem; simpa using hmem)]
    rw [hsame]
    exact hv
  · rw [applyOp_join_of_not_member (Bool.of_not_eq_true hmem)]
    unfold positionIn at hv ⊢
    show ((s.queue_members ++ [_]).find? _).map _ = _
    rw [List.find?_append]
    cases hf : s.queue_members.find? (fun m => m.queue_id == q && m.user_id == v) with
    | none => rw [hf] at hv; cases hv
    | some m =>
        rw [hf] at hv
        exact hv

lemma positionIn_le_maxPosition {s : DBState} {q : Nat} {v : Int} {pv : Nat}
    (h : positionIn s q v = some pv) : pv ≤ maxPosition s q := by
  unfold positionIn at h
  cases hf : s.queue_members.find? (fun m => m.queue_id == q && m.user_id == v) with
  | none => rw [hf] at h; cases h
  | some m =>
      rw [hf] at h
      have hm := List.find?_some hf
      rw [Bool.and_eq_true, beq_iff_eq, beq_iff_eq] at hm
      have hmem : m ∈ membersOf s q :=
        List.mem_filter.mpr ⟨List.mem_of_find?_eq_some hf, by simp [hm.1]⟩
      have hpos : pv ∈ positionsOf s q := by
        rw [positionsOf, List.mem_map]
        refine ⟨m, hmem, ?_⟩
        simpa using h
      exact le_foldr_max hpos

/-- After the removal of (q, w) the user w is no longer a member of q. -/
lemma isMember_remove_self (s : DBState) (q : Nat) (w : Int) :
    isMember (remove_from_queue s q w) q w = false := by
  cases hfind : s.queue_members.find? (fun m => m.queue_id == q && m.user_id == w) with
  | none =>
      rw [remove_from_queue_of_none hfind, isMember]
      rw [List.any_eq_false]
      intro x hx
      exact List.find?_eq_none.mp hfind x hx
  | some row =>
      rw [remove_from_queue_of_some hfind, isMember]
      show (renumberAfterRemoval s.queue_members q w row.position).any _ = false
      rw [List.any_eq_false]
      intro x hx
      unfold renumberAfterRemoval at hx
      rw [List.mem_map] at hx
      obtain ⟨m, hm, hfm⟩ := hx
      have hkeep := (List.mem_filter.mp hm).2
      intro hmatch
      rw [← hfm, Bool.and_eq_true, beq_iff_eq, beq_iff_eq,
        upd_queue_id, upd_user_id] at hmatch
      simp [hmatch.1, hmatch.2] at hkeep

lemma upd_position_eq (q p : Nat) (m : QueueMembersRow) :
    (if m.queue_id == q && p < m.position then
        { m with position := m.position - 1 } else m).position =
      if m.queue_id == q && p < m.position then m.position - 1 else m.position := by
  split <;> rfl

lemma positionsOf_nodup {s : DBState} (hInv : Inv s) (q : Nat) :
    (positionsOf s q).Nodup :=
  (hInv.2 q).symm.nodup (List.nodup_range' 1 (get_queue_member_count s q))

lemma position_injective {s : DBState} (hInv : Inv s) {q : Nat}
    {m₁ m₂ : QueueMembersRow} (h₁ : m₁ ∈ membersOf s q) (h₂ : m₂ ∈ membersOf s q)
    (hpos : m₁.position = m₂.position) : m₁ = m₂ := by
  have hnodup : ((membersOf s q).map (fun m => m.position)).Nodup :=
    positionsOf_nodup hInv q
  exact List.inj_on_of_nodup_map hnodup h₁ h₂ hpos

lemma positionIn_some_elim {s : DBState} {q : Nat} {v : Int} {pv : Nat}
    (h : positionIn s q v = some pv) :
    ∃ m, s.queue_members.find? (fun mm => mm.queue_id == q && mm.user_id == v) = some m ∧
      m.queue_id = q ∧ m.user_id = v ∧ m.position = pv ∧ m ∈ membersOf s q := by
  unfold positionIn at h
  cases hf : s.queue_members.find? (fun mm => mm.queue_id == q && mm.user_id == v) with
  | none => rw [hf] at h; cases h
  | some m =>
      rw [hf] at h
      have hm := List.find?_some hf
      rw [Bool.and_eq_true, beq_iff_eq, beq_iff_eq] at hm
      refine ⟨m, rfl, hm.1, hm.2, by simpa using h, ?_⟩
      exact List.mem_filter.mpr ⟨List.mem_of_find?_eq_some hf, by simp [hm.1]⟩

/-- How a membership lookup changes across a removal of (qr, w), provided the
looked-up membership is not the removed one. -/
lemma positionIn_remove {s : DBState} {qr : Nat} {w : Int}
    {row : QueueMembersRow}
    (hfind : s.queue_members.find? (fun m => m.queue_id == qr && m.user_id == w) = some row)
    {q : Nat} {v : Int} {pv : Nat}
    (hv : positionIn s q v = some pv) (hvw : q ≠ qr ∨ v ≠ w) :
    positionIn (remove_from_queue s qr w) q v =
      some (if q = qr ∧ row.position < pv then pv - 1 else pv) := by
  obtain ⟨mv, hmvfind, hmvq, hmvu, hmvp, hmvmem⟩ := positionIn_some_elim hv
  rw [remove_from_queue_of_some hfind]
  unfold positionIn
  show (((s.queue_members.filter _).map _).find? _).map _ = _
  rw [find?_filter_map _ _ _ _ ?hkeep ?hf]
  case hkeep =>
    intro m hm
    rw [Bool.and_eq_true, beq_iff_eq, beq_iff_eq] at hm
    cases hvw with
    | inl hne =>
        have : (m.queue_id == qr) = false := by
          rw [hm.1]
          simp
          exact hne
        simp [this]
    | inr hne =>
        have : (m.user_id == w) = false := by
          rw [hm.2]
          simp
          exact hne
        simp [this]
  case hf =>
    intro m
    show ((if m.queue_id == qr && row.position < m.position then
        { m with position := m.position - 1 } else m).queue_id == q &&
        (if m.queue_id == qr && row.position < m.position then
        { m with position := m.position - 1 } else m).user_id == v) = _
    rw [upd_queue_id, upd_user_id]
  rw [hmvfind]
  simp only [Option.map_some']
  rw [Option.some.injEq]
  rw [upd_position_eq]
  by_cases hq : q = qr
  · subst hq
    have hbq : (mv.queue_id == q) = true := by simp [hmvq]
    rw [hbq, hmvp]
    simp only [Bool.true_and]
    by_cases hlt : row.position < pv
    · simp [hlt]
    · simp [hlt]
  · have : (mv.queue_id == qr) = false := by
      rw [hmvq]
      simp
      exact hq
    rw [this]
    simp only [Bool.false_and, if_neg Bool.false_ne_true, hmvp]
    rw [if_neg (by rintro ⟨hc, -⟩; exact hq hc)]

/-- Positions of two surviving members stay strictly ordered across any
`remove_from_queue`. -/
lemma fifo_remove {s : DBState} (hInv : Inv s) {qr : Nat} {w : Int} {q : Nat}
    {A B : Int} {pA pB : Nat}
    (hA : positionIn s q A = some pA) (hB : positionIn s q B = some pB)
    (hAB : pA < pB)
    (hA' : isMember (remove_from_queue s qr w) q A = true)
    (hB' : isMember (remove_from_queue s qr w) q B = true) :
    ∃ pA' pB', positionIn (remove_from_queue s qr w) q A = some pA' ∧
      positionIn (remove_from_queue s qr w) q B = some pB' ∧ pA' < pB' := by
  cases hfind : s.queue_members.find? (fun m => m.queue_id == qr && m.user_id == w) with
  | none =>
      rw [remove_from_queue_of_none hfind]
      exact ⟨pA, pB, hA, hB, hAB⟩
  | some row =>
      by_cases hq : q = qr
      · subst hq
        have hAw : A ≠ w := by
          intro hc
          subst hc
          rw [isMember_remove_self] at hA'
          cases hA'
        have hBw : B ≠ w := by
          intro hc
          subst hc
          rw [isMember_remove_self] at hB'
          cases hB'
        have hrow := List.find?_some hfind
        rw [Bool.and_eq_true, beq_iff_eq, beq_iff_eq] at hrow
        have hrowmem : row ∈ membersOf s q :=
          List.mem_filter.mpr ⟨List.mem_of_find?_eq_some hfind, by simp [hrow.1]⟩
        obtain ⟨mA, -, -, hmAu, hmAp, hmAmem⟩ := positionIn_some_elim hA
        obtain ⟨mB, -, -, hmBu, hmBp, hmBmem⟩ := positionIn_some_elim hB
        have hpA : row.position ≠ pA := by
          intro hc
          have : row = mA := position_injective hInv hrowmem hmAmem (by rw [hc, hmAp])
          rw [this] at hrow
          exact hAw (by rw [← hmAu, hrow.2])
        have hpB : row.position ≠ pB := by
          intro hc
          have : row = mB := position_injective hInv hrowmem hmBmem (by rw [hc, hmBp])
          rw [this] at hrow
          exact hBw (by rw [← hmBu, hrow.2])
        refine ⟨if q = q ∧ row.position < pA then pA - 1 else pA,
          if q = q ∧ row.position < pB then pB - 1 else pB,
          positionIn_remove hfind hA (Or.inr hAw),
          positionIn_remove hfind hB (Or.inr hBw), ?_⟩
        by_cases h1 : row.position < pA <;> by_cases h2 : row.position < pB <;>
          simp [h1, h2] <;> omega
      · refine ⟨pA, pB, ?_, ?_, hAB⟩
        · rw [positionIn_remove hfind hA (Or.inl hq)]
          rw [if_neg (by rintro ⟨hc, -⟩; exact hq hc)]
        · rw [positionIn_remove hfind hB (Or.inl hq)]
          rw [if_neg (by rintro ⟨hc, -⟩; exact hq hc)]

/-- Positions of two surviving members stay strictly ordered across any
single operation. -/
lemma fifo_step {s : DBState} (hInv : Inv s) (o : Op) {q : Nat} {A B : Int}
    {pA pB : Nat}
    (hA : positionIn s q A = some pA) (hB : positionIn s q B = some pB)
    (hAB : pA < pB)
    (hA' : isMember (applyOp s o) q A = true)
    (hB' : isMember (applyOp s o) q B = true) :
    ∃ pA' pB', positionIn (applyOp s o) q A = some pA' ∧
      positionIn (applyOp s o) q B = some pB' ∧ pA' < pB' := by
  cases o with
  | join qj uj tj =>
      exact ⟨pA, pB, positionIn_join_preserves hA, positionIn_join_preserves hB, hAB⟩
  | leave qr w => exact fifo_remove hInv hA hB hAB hA' hB'
  | advance qr t =>
      simp only [applyOp] at hA' hB' ⊢
      cases hnext : get_next_in_queue s qr t with
      | none => exact ⟨pA, pB, hA, hB, hAB⟩
      | some m =>
          rw [hnext] at hA' hB'
          exact fifo_remove hInv hA hB hAB hA' hB'
  | removeMember qr w r =>
      simp only [applyOp] at hA' hB' ⊢
      rw [remove_user_from_queue_fst] at hA' hB' ⊢
      by_cases hcond : s.queues.any (fun qq => qq.id == qr && qq.creator_id == r) = true
      · rw [if_pos hcond] at hA' hB' ⊢
        exact fifo_remove hInv hA hB hAB hA' hB'
      · rw [if_neg hcond] at hA' hB' ⊢
        exact ⟨pA, pB, hA, hB, hAB⟩

lemma memberThrough_cons {s : DBState} {o : Op} {rest : List Op} {q : Nat}
    {u : Int} :
    memberThrough s (o :: rest) q u = true ↔
      isMember (applyOp s o) q u = true ∧
        memberThrough (applyOp s o) rest q u = true := by
  show (isMember (applyOp s o) q u && memberThrough (applyOp s o) rest q u) = true ↔ _
  rw [Bool.and_eq_true]

lemma memberThrough_final {s : DBState} {ops : List Op} {q : Nat} {u : Int}
    (h0 : isMember s q u = true) (hthr : memberThrough s ops q u = true) :
    isMember (applyOps s ops) q u = true := by
  induction ops generalizing s with
  | nil => exact h0
  | cons o rest ih =>
      rw [memberThrough_cons] at hthr
      exact ih hthr.1 hthr.2

/-- Positions of two surviving members stay strictly ordered across any
trace of operations. -/
lemma fifo_trace {s : DBState} (hInv : Inv s) (ops : List Op) {q : Nat}
    {A B : Int} {pA pB : Nat}
    (hA : positionIn s q A = some pA) (hB : positionIn s q B = some pB)
    (hAB : pA < pB)
    (hthrA : memberThrough s ops q A = true)
    (hthrB : memberThrough s ops q B = true) :
    ∃ pA' pB', positionIn (applyOps s ops) q A = some pA' ∧
      positionIn (applyOps s ops) q B = some pB' ∧ pA' < pB' := by
  induction ops generalizing s pA pB with
  | nil => exact ⟨pA, pB, hA, hB, hAB⟩
  | cons o rest ih =>
      rw [memberThrough_cons] at hthrA hthrB
      obtain ⟨pA1, pB1, hA1, hB1, hAB1⟩ :=
        fifo_step hInv o hA hB hAB hthrA.1 hthrB.1
      exact ih (inv_applyOp hInv o) hA1 hB1 hAB1 hthrA.2 hthrB.2

/-! ### The claims -/

/-- C1: Contiguity invariant: for every queue, after any finite sequence of
join, leave, advance, and remove-member operations starting from an empty
membership, the multiset of position values of that queue's members is
exactly 1..N with no gaps and no duplicates, where N is the current member
count. -/
theorem contiguity_invariant (users : List UsersRow) (queues : List QueuesRow)
    (nid : Nat) (ops : List Op) (q : Nat) :
    (positionsOf (applyOps ⟨users, queues, [], nid⟩ ops) q).Perm
      (List.range' 1
        (get_queue_member_count (applyOps ⟨users, queues, [], nid⟩ ops) q)) :=
  (inv_applyOps (inv_of_empty_members users queues nid) ops).2 q

/-- C2: FIFO property: if A joins queue q before B joins (in a history of
store operations starting from an empty membership) and neither A nor B
leaves or is removed afterwards, then at every subsequent observation A's
position is strictly below B's position. -/
theorem fifo_property (users : List UsersRow) (queues : List QueuesRow)
    (nid : Nat) (ops₀ ops₁ ops₂ : List Op) (q : Nat) (A B : Int) (tA tB : Nat)
    (s₀ s₁ s₂ : DBState)
    (h₀ : s₀ = applyOps ⟨users, queues, [], nid⟩ ops₀)
    (hA0 : isMember s₀ q A = false)
    (h₁ : s₁ = applyOps (applyOp s₀ (.join q A tA)) ops₁)
    (hthr1 : memberThrough (applyOp s₀ (.join q A tA)) ops₁ q A = true)
    (hB0 : isMember s₁ q B = false)
    (h₂ : s₂ = applyOp s₁ (.join q B tB))
    (hthrA : memberThrough s₂ ops₂ q A = true)
    (hthrB : memberThrough s₂ ops₂ q B = true) :
    ∃ pA pB, positionIn (applyOps s₂ ops₂) q A = some pA ∧
      positionIn (applyOps s₂ ops₂) q B = some pB ∧ pA < pB := by
  subst h₀ h₁ h₂
  have hInv0 : Inv (applyOps (⟨users, queues, [], nid⟩ : DBState) ops₀) :=
    inv_applyOps (inv_of_empty_members users queues nid) ops₀
  set s₀ := applyOps (⟨users, queues, [], nid⟩ : DBState) ops₀ with hs₀
  have hA0' : positionIn (applyOp s₀ (.join q A tA)) q A =
      some (maxPosition s₀ q + 1) := positionIn_after_join hA0
  have hmemA : isMember (applyOp s₀ (.join q A tA)) q A = true :=
    isMember_iff_positionIn.mpr ⟨_, hA0'⟩
  set s₁ := applyOps (applyOp s₀ (.join q A tA)) ops₁ with hs₁
  have hmemA1 : isMember s₁ q A = true := memberThrough_final hmemA hthr1
  obtain ⟨pA1, hA1⟩ := isMember_iff_positionIn.mp hmemA1
  have hInv1 : Inv s₁ :=
    inv_applyOps (inv_applyOp hInv0 (.join q A tA)) ops₁
  have hA2 : positionIn (applyOp s₁ (.join q B tB)) q A = some pA1 :=
    positionIn_join_preserves hA1
  have hB2 : positionIn (applyOp s₁ (.join q B tB)) q B =
      some (maxPosition s₁ q + 1) := positionIn_after_join hB0
  have hlt : pA1 < maxPosition s₁ q + 1 :=
    Nat.lt_succ_of_le (positionIn_le_maxPosition hA1)
  have hInv2 : Inv (applyOp s₁ (.join q B tB)) :=
    inv_applyOp hInv1 (.join q B tB)
  exact fifo_trace hInv2 ops₂ hA2 hB2 hlt hthrA hthrB

/-- Witness for C2 at a concrete history: user 20 joins queue 1, then user
30, then user 40; 20's position stays strictly below 30's. -/
theorem fifo_property_witness :
    ∃ pA pB,
      positionIn (applyOps (applyOp (applyOps (applyOp
        (applyOps (⟨[], [], [], 1⟩ : DBState) []) (.join 1 20 0)) [])
        (.join 1 30 0)) [.join 1 40 0]) 1 20 = some pA ∧
      positionIn (applyOps (applyOp (applyOps (applyOp
        (applyOps (⟨[], [], [], 1⟩ : DBState) []) (.join 1 20 0)) [])
        (.join 1 30 0)) [.join 1 40 0]) 1 30 = some pB ∧
      pA < pB :=
  fifo_property [] [] 1 [] [] [.join 1 40 0] 1 20 30 0 0 _ _ _ rfl (by decide)
    rfl (by decide) (by decide) rfl (by decide) (by decide)

/-- C3: Join position assignment: a successful join (no existing membership
for the queue and user) returns a position p and inserts the membership row
with that position, where p is strictly above every position previously held
in the queue, p = 1 when the queue had no members, and p - 1 was a held
position otherwise — i.e. p is the previous maximum plus one; nothing else
changes. -/
theorem join_assigns_max_plus_one (s : DBState) (q : Nat) (u : Int) (now : Nat)
    (h : isMember s q u = false) :
    ∃ p s', add_to_queue s q u now = .ok (s', p) ∧
      (∀ x ∈ positionsOf s q, x < p) ∧
      (positionsOf s q = [] → p = 1) ∧
      (positionsOf s q ≠ [] → p - 1 ∈ positionsOf s q) ∧
      s'.queue_members = s.queue_members ++ [⟨q, u, p, now⟩] ∧
      s'.users = s.users ∧ s'.queues = s.queues ∧
      s'.next_queue_id = s.next_queue_id := by
  have hok : add_to_queue s q u now = .ok
      (⟨s.users, s.queues, s.queue_members ++ [⟨q, u, maxPosition s q + 1, now⟩],
        s.next_queue_id⟩, maxPosition s q + 1) := by
    unfold add_to_queue
    rw [if_neg (by rw [isMember] at h; simp [h])]
  refine ⟨maxPosition s q + 1, _, hok, ?_, ?_, ?_, rfl, rfl, rfl, rfl⟩
  · intro x hx
    exact Nat.lt_succ_of_le (le_foldr_max hx)
  · intro hempty
    unfold maxPosition
    rw [hempty]
    rfl
  · intro hne
    have he : maxPosition s q + 1 - 1 = maxPosition s q := by omega
    rw [he]
    exact foldr_max_mem hne

/-- Witness for C3: user 40 joins the two-member queue 1 of `sampleState`. -/
theorem join_assigns_max_plus_one_witness :
    isMember sampleState 1 40 = false ∧
    (∃ p s', add_to_queue sampleState 1 40 3 = .ok (s', p) ∧
      (∀ x ∈ positionsOf sampleState 1, x < p) ∧
      (positionsOf sampleState 1 = [] → p = 1) ∧
      (positionsOf sampleState 1 ≠ [] → p - 1 ∈ positionsOf sampleState 1) ∧
      s'.queue_members = sampleState.queue_members ++ [⟨1, 40, p, 3⟩] ∧
      s'.users = sampleState.users ∧ s'.queues = sampleState.queues ∧
      s'.next_queue_id = sampleState.next_queue_id) :=
  ⟨by decide, join_assigns_max_plus_one sampleState 1 40 3 (by decide)⟩

/-- C4: Leave renumbering: removing the member holding position p of queue q
deletes that membership, decrements by exactly one the position of every
same-queue member whose position was above p while keeping the others, leaves
every other queue's member rows and the users and queues tables unchanged,
and drops the member count by one. -/
theorem leave_renumbers (s : DBState) (q : Nat) (u : Int) (p : Nat)
    (hpk : pkUnique s.queue_members)
    (hmem : positionIn s q u = some p) :
    isMember (remove_from_queue s q u) q u = false ∧
    (∀ v : Int, v ≠ u → ∀ pv, positionIn s q v = some pv →
      positionIn (remove_from_queue s q u) q v =
        some (if p < pv then pv - 1 else pv)) ∧
    (∀ q' : Nat, q' ≠ q →
      membersOf (remove_from_queue s q u) q' = membersOf s q') ∧
    get_queue_member_count (remove_from_queue s q u) q =
      get_queue_member_count s q - 1 ∧
    (remove_from_queue s q u).users = s.users ∧
    (remove_from_queue s q u).queues = s.queues := by
  obtain ⟨row, hfind, hrq, hru, hrp, hrmem⟩ := positionIn_some_elim hmem
  refine ⟨isMember_remove_self s q u, ?_, ?_, count_after_remove hpk hfind, ?_, ?_⟩
  · intro v hv pv hpv
    rw [positionIn_remove hfind hpv (Or.inr hv), hrp]
    by_cases hlt : p < pv
    · simp [hlt]
    · simp [hlt]
  · intro q' hq'
    rw [remove_from_queue_of_some hfind]
    show (renumberAfterRemoval s.queue_members q u row.position).filter _ = _
    rw [renumber_filter_of_ne hq']
    rfl
  · rw [remove_from_queue_of_some hfind]
  · rw [remove_from_queue_of_some hfind]

/-- Witness for C4, realizing Scenario 3 of the spec: user 20 (position 1)
leaves the two-member queue 1; user 30 ends at position 1 and the count is
1. -/
theorem leave_renumbers_witness :
    pkUnique sampleState.queue_members ∧
    positionIn sampleState 1 20 = some 1 ∧
    (isMember (remove_from_queue sampleState 1 20) 1 20 = false ∧
      (∀ v : Int, v ≠ 20 → ∀ pv, positionIn sampleState 1 v = some pv →
        positionIn (remove_from_queue sampleState 1 20) 1 v =
          some (if 1 < pv then pv - 1 else pv)) ∧
      (∀ q' : Nat, q' ≠ 1 →
        membersOf (remove_from_queue sampleState 1 20) q' = membersOf sampleState q') ∧
      get_queue_member_count (remove_from_queue sampleState 1 20) 1 =
        get_queue_member_count sampleState 1 - 1 ∧
      (remove_from_queue sampleState 1 20).users = sampleState.users ∧
      (remove_from_queue sampleState 1 20).queues = sampleState.queues) ∧
    positionIn (remove_from_queue sampleState 1 20) 1 30 = some 1 ∧
    get_queue_member_count (remove_from_queue sampleState 1 20) 1 = 1 :=
  ⟨by unfold pkUnique; decide, by decide,
    leave_renumbers sampleState 1 20 1 (by unfold pkUnique; decide) (by decide),
    by decide, by decide⟩

/-- C10: the store-level join performs no queue-existence or expiry check:
whenever (q, u) has no membership row, add_to_queue succeeds, appends the
membership row, and returns one plus the maximum existing position for that
queue id — and its behavior is identical under an arbitrary replacement of
the queues table, in particular when no queue with that id exists or the
queue has expired. -/
theorem add_to_queue_unchecked (s : DBState) (q : Nat) (u : Int) (now : Nat)
    (h : isMember s q u = false) :
    add_to_queue s q u now =
      .ok (⟨s.users, s.queues,
        s.queue_members ++ [⟨q, u, maxPosition s q + 1, now⟩],
        s.next_queue_id⟩, maxPosition s q + 1) ∧
    (∀ queues' : List QueuesRow,
      add_to_queue (⟨s.users, queues', s.queue_members, s.next_queue_id⟩ : DBState) q u now =
        .ok (⟨s.users, queues',
          s.queue_members ++ [⟨q, u, maxPosition s q + 1, now⟩],
          s.next_queue_id⟩, maxPosition s q + 1)) := by
  constructor
  · unfold add_to_queue
    rw [if_neg (by rw [isMember] at h; simp [h])]
  · intro queues'
    unfold add_to_queue
    rw [if_neg (by rw [isMember] at h; simp [h])]
    rfl

/-- Witness for C10: joining queue 5 in `orphanState`, although no queues
row with id 5 exists at all, succeeds and returns position 2. -/
theorem add_to_queue_unchecked_witness :
    isMember orphanState 5 30 = false ∧
    add_to_queue orphanState 5 30 7 =
      .ok (⟨[], [], [⟨5, 20, 1, 0⟩, ⟨5, 30, 2, 7⟩], 1⟩, 2) ∧
    add_to_queue orphanState 5 30 7 =
      .ok (⟨orphanState.users, orphanState.queues,
        orphanState.queue_members ++ [⟨5, 30, maxPosition orphanState 5 + 1, 7⟩],
        orphanState.next_queue_id⟩, maxPosition orphanState 5 + 1) :=
  ⟨by decide, rfl, (add_to_queue_unchecked orphanState 5 30 7 (by decide)).1⟩

/-- C5 counterexample: with queue 1 of `sampleState` expired at time 90000,
get_queue reports NotFound, yet the member count still reports 2 and the
membership lookup still finds user 20, so the expired queue is not invisible
to those operations; moreover at time 10, when the queue is NOT expired,
get_queue does not return the queue either: the models.Queue constructor
call raises TypeError. -/
theorem lazy_expiry_counterexample :
    get_queue sampleState 1 90000 = .ok none ∧
    get_queue_member_count sampleState 1 = 2 ∧
    (get_queue_member sampleState 1 20 90000).isSome = true ∧
    get_queue sampleState 1 10 = .error .typeError :=
  ⟨rfl, rfl, rfl, rfl⟩

/-- C5 amended: get_queue's row filter matches exactly when a queues row with
that id exists with expires_at still in the future — it reports NotFound
(None) when there is no such row — but a matching row makes the embedded
models.Queue constructor call raise TypeError instead of returning the
queue, so no queue is ever returned; and expiry hides the queue from no
membership operation: the member count and the membership lookup depend only
on the queue_members (and users) tables, never on the queues table. -/
theorem lazy_expiry_amended (s : DBState) (q : Nat) (now : Nat) :
    (get_queue s q now = .ok none ↔
      ∀ r ∈ s.queues, r.id = q → r.expires_at ≤ now) ∧
    (get_queue s q now = .error .typeError ↔
      ∃ r ∈ s.queues, r.id = q ∧ now < r.expires_at) ∧
    (∀ qq : Queue, get_queue s q now ≠ .ok (some qq)) ∧
    (∀ s' : DBState, s'.queue_members = s.queue_members →
      get_queue_member_count s' q = get_queue_member_count s q) ∧
    (∀ s' : DBState, s'.queue_members = s.queue_members → s'.users = s.users →
      ∀ (u : Int) (now' : Nat),
        get_queue_member s' q u now' = get_queue_member s q u now') := by
  refine ⟨?_, ?_, ?_, ?_, ?_⟩
  · cases hf : s.queues.find? (fun r => r.id == q && decide (now < r.expires_at)) with
    | none =>
        have hnone : get_queue s q now = .ok none := by
          unfold get_queue
          rw [hf]
        refine iff_of_true hnone ?_
        intro r hr hid
        by_contra hno
        have hlt : now < r.expires_at := by omega
        have hne := List.find?_eq_none.mp hf r hr
        apply hne
        simp [hid, hlt]
    | some r =>
        have herr : get_queue s q now = .error .typeError := by
          unfold get_queue
          rw [hf]
          rfl
        have hprops := List.find?_some hf
        rw [Bool.and_eq_true, beq_iff_eq, decide_eq_true_eq] at hprops
        refine iff_of_false (by rw [herr]; simp) ?_
        intro hall
        have := hall r (List.mem_of_find?_eq_some hf) hprops.1
        omega
  · cases hf : s.queues.find? (fun r => r.id == q && decide (now < r.expires_at)) with
    | none =>
        have hnone : get_queue s q now = .ok none := by
          unfold get_queue
          rw [hf]
        refine iff_of_false (by rw [hnone]; simp) ?_
        rintro ⟨r, hr, hid, hlt⟩
        have hne := List.find?_eq_none.mp hf r hr
        apply hne
        simp [hid, hlt]
    | some r =>
        have herr : get_queue s q now = .error .typeError := by
          unfold get_queue
          rw [hf]
          rfl
        have hprops := List.find?_some hf
        rw [Bool.and_eq_true, beq_iff_eq, decide_eq_true_eq] at hprops
        exact iff_of_true herr ⟨r, List.mem_of_find?_eq_some hf, hprops.1, hprops.2⟩
  · intro qq
    cases hf : s.queues.find? (fun r => r.id == q && decide (now < r.expires_at)) with
    | none =>
        have hnone : get_queue s q now = .ok none := by
          unfold get_queue
          rw [hf]
        rw [hnone]
        simp
    | some r =>
        have herr : get_queue s q now = .error .typeError := by
          unfold get_queue
          rw [hf]
          rfl
        rw [herr]
        simp
  · intro s' h
    unfold get_queue_member_count membersOf
    rw [h]
  · intro s' h hu u now'
    unfold get_queue_member
    rw [h, hu]

/-- Witness for C5 amended: the member count of queue 1 is unchanged under
replacement of the users table, by the independence clause. -/
theorem lazy_expiry_amended_witness :
    get_queue_member_count
      (⟨[], sampleState.queues, sampleState.queue_members, 7⟩ : DBState) 1 =
      get_queue_member_count sampleState 1 :=
  (lazy_expiry_amended sampleState 1 90000).2.2.2.1
    (⟨[], sampleState.queues, sampleState.queue_members, 7⟩ : DBState) rfl

/-- C6: evaluation at the failing input: creator 10 deletes queue 1 of
`sampleState`.  delete_queue authorizes, returns true, and removes the
queues row — but both membership rows survive because src/database.py never
issues PRAGMA foreign_keys=ON, so sqlite's default-off foreign-key
enforcement never fires the declared ON DELETE CASCADE; the cascade the
claim (and the schema) describes does not happen.  A non-creator request
returns false and changes nothing. -/
theorem delete_queue_no_cascade :
    delete_queue sampleState 1 10 =
      (⟨sampleState.users, [⟨2, "Lab2", 10, 0, 86400⟩],
        sampleState.queue_members, 3⟩, true) ∧
    (delete_queue sampleState 1 10).1.queue_members =
      [⟨1, 20, 1, 1⟩, ⟨1, 30, 2, 2⟩] ∧
    delete_queue sampleState 1 99 = (sampleState, false) :=
  ⟨by decide, by decide, by decide⟩

/-- C7 counterexample: a 101-character name is accepted by the store-level
create_queue — the queue is created and its id returned, with no
ValidationError anywhere — and the empty name is accepted just the same. -/
theorem creation_validation_counterexample :
    longName.length = 101 ∧
    create_queue sampleState longName 10 5 =
      (⟨sampleState.users,
        sampleState.queues ++ [⟨3, longName, 10, 5, 86405⟩],
        sampleState.queue_members, 4⟩, 3) ∧
    (create_queue sampleState "" 10 5).1.queues.length = 3 :=
  ⟨by decide, by decide, by decide⟩

/-- C7 amended: the store-level create_queue performs no validation — it
inserts any name, empty or over-long, and allocates monotonically increasing
ids (each call returns the current counter and a later call returns a
strictly larger id); the emptiness and 100-character checks exist only in
the interactive creation flow, which rejects exactly the empty-after-strip
and the over-100-character names without touching the database and otherwise
creates the queue. -/
theorem creation_validation_amended (s : DBState) (name₁ name₂ : String)
    (c₁ c₂ : Int) (t₁ t₂ : Nat) (text : String) (u : Int) (tu : Nat) :
    (create_queue s name₁ c₁ t₁).2 = s.next_queue_id ∧
    (create_queue s name₁ c₁ t₁).1.queues =
      s.queues ++ [⟨s.next_queue_id, name₁, c₁, t₁, t₁ + 86400⟩] ∧
    (create_queue s name₁ c₁ t₁).2 <
      (create_queue (create_queue s name₁ c₁ t₁).1 name₂ c₂ t₂).2 ∧
    (create_queue_flow s text u tu = (s, .emptyName) ↔ pyStrip text = "") ∧
    (create_queue_flow s text u tu = (s, .nameTooLong) ↔
      pyStrip text ≠ "" ∧ 100 < (pyStrip text).length) ∧
    (pyStrip text ≠ "" → ¬ 100 < (pyStrip text).length →
      create_queue_flow s text u tu =
        ((create_queue s (pyStrip text) u tu).1, .created s.next_queue_id)) := by
  refine ⟨rfl, rfl, ?_, ?_, ?_, ?_⟩
  · show s.next_queue_id < s.next_queue_id + 1
    omega
  · unfold create_queue_flow
    by_cases hempty : pyStrip text = ""
    · rw [if_pos hempty]
      exact iff_of_true rfl hempty
    · rw [if_neg hempty]
      by_cases hlong : 100 < (pyStrip text).length
      · rw [if_pos hlong]
        exact iff_of_false (by simp) hempty
      · rw [if_neg hlong]
        exact iff_of_false (by simp) hempty
  · unfold create_queue_flow
    by_cases hempty : pyStrip text = ""
    · rw [if_pos hempty]
      exact iff_of_false (by simp) (by rintro ⟨hc, -⟩; exact hc hempty)
    · rw [if_neg hempty]
      by_cases hlong : 100 < (pyStrip text).length
      · rw [if_pos hlong]
        exact iff_of_true rfl ⟨hempty, hlong⟩
      · rw [if_neg hlong]
        exact iff_of_false (by simp) (by rintro ⟨-, hc⟩; exact hlong hc)
  · intro hempty hlong
    unfold create_queue_flow
    rw [if_neg hempty, if_neg hlong]
    rfl

/-- Witness for C7 amended: the flow creates queue "Lab3" from the message
text " Lab3 " and hands out the next id. -/
theorem creation_validation_amended_witness :
    create_queue_flow sampleState " Lab3 " 10 9 =
      ((create_queue sampleState (pyStrip " Lab3 ") 10 9).1,
        .created sampleState.next_queue_id) :=
  (creation_validation_amended sampleState "x" "y" 1 2 3 4 " Lab3 " 10 9).2.2.2.2.2
    (by decide) (by decide)

/-- C8: evaluation at the failing input: creator 10 asks to remove the
registered member "user20" from queue 1 of `sampleState`.  The flow's first
db call, get_queue, raises TypeError (models.Queue lacks expires_at), the
handler's except block reports a generic error, and nobody is removed; had
get_queue returned, the next call — db.get_user_by_username — would itself
raise AttributeError, because the Database class defines no such method: the
directory lookup by display name does not exist in this repository. -/
theorem remove_user_lookup_broken :
    cmd_remove_user sampleState 1 "user20" 10 10 = (sampleState, .internalError) ∧
    get_user_by_username sampleState "user20" = .error .attributeError ∧
    isMember sampleState 1 20 = true :=
  ⟨rfl, rfl, by decide⟩

/-- C9: evaluation at the failing input: a single Join (the N = 1 instance)
by registered user 20 on the existing, unexpired, empty queue 2 of
`sampleState` does not succeed: under the per-queue lock the handler calls
db.get_queue, which raises TypeError, the except block reports a generic
error, and no membership is inserted — so N concurrent Join calls on an
empty queue produce no positions at all rather than 1..N. -/
theorem join_flow_broken :
    cmd_join_queue sampleState 2 20 10 = (sampleState, .internalError) ∧
    get_queue sampleState 2 10 = .error .typeError ∧
    get_queue_member_count sampleState 2 = 0 :=
  ⟨rfl, rfl, rfl⟩

end QueueBot
